import Mathlib

/- Formal model of MAScontrol (mas.py): the wire codec, command-table
validation of send_command, the session retry loop, and the History
buffer with its persistence operations.  The embedding is shallow:
Python byte strings are lists of byte values (Nat), datetimes and
timedeltas are abstract integers, numpy arrays are Lists of their full
allocated length together with a filled-points cursor, and methods that
can raise return Except.  File writes are modelled by returning the
written content as data. -/

/-- ASCII whitespace recognised by the Python 2 str.split() default:
space, tab, newline, vertical tab, form feed, carriage return. -/
def isSpace (c : Nat) : Bool :=
  c == 32 || c == 9 || c == 10 || c == 11 || c == 12 || c == 13

/-- Helper for pySplit: scan the byte list, accumulating the current
token in reverse. -/
def pySplitAux : List Nat → List Nat → List (List Nat)
  | [], acc => if acc.isEmpty then [] else [acc.reverse]
  | c :: rest, acc =>
    if isSpace c then
      if acc.isEmpty then pySplitAux rest []
      else acc.reverse :: pySplitAux rest []
    else pySplitAux rest (c :: acc)

/-- Python str.split() with no argument: split on runs of whitespace,
discarding leading and trailing whitespace. -/
def pySplit (l : List Nat) : List (List Nat) := pySplitAux l []

/-- MASTCPHandler.encode_message: add 128 to every character code and
append the high-shifted carriage return 0x8D. -/
def encode_message (message : List Nat) : List Nat :=
  (message.map (fun n => n + 128)) ++ [141]

/-- MASTCPHandler.decode_message: subtract 128 from every byte, drop the
trailing two characters (the shifted CR LF terminator), and split the
rest on whitespace. -/
def decode_message (message : List Nat) : List (List Nat) :=
  pySplit ((message.map (fun b => b - 128)).take (message.length - 2))

/-- The ValueError cases raised by MASTCPHandler.send_command before
anything is written to the socket. -/
inductive ProtoErr where
  /-- ValueError: Unknown command. -/
  | unknownCommand
  /-- ValueError: Incorrect number of arguments for command. -/
  | wrongArgCount
deriving Repr, DecidableEq

/-- The command table: an association from command code (a byte string)
to the pair of integer fields of its cfgmas.dat entry; the first field
is the required argument count (load_cfg stores both fields and
send_command reads only the first). -/
abbrev CmdTable := List (List Nat × (Nat × Nat))

/-- MASTCPHandler.send_command up to the point where bytes are written:
validate the code against the table, validate the argument count, join
code and arguments with single spaces, and encode.  The ok payload is
exactly the byte string written to the socket; an error result means
the send was rejected before any bytes reached the wire. -/
def send_command (table : CmdTable) (command : List Nat)
    (args : List (List Nat)) : Except ProtoErr (List Nat) :=
  match List.lookup command table with
  | none => .error .unknownCommand
  | some (nargs, _) =>
    if args.length ≠ nargs then .error .wrongArgCount
    else
      let message :=
        if 1 ≤ args.length then command ++ [32] ++ List.intercalate [32] args
        else command
      .ok (encode_message message)

/-- The Boolean probe used at each step of numpy searchsorted: in side
right the probe is a midpoint value at most v, in side left it is a
midpoint value strictly below v. -/
def ssTest (v : Int) (right : Bool) (x : Int) : Bool :=
  cond right (decide (x ≤ v)) (decide (x < v))

/-- The bisection loop of numpy searchsorted, with explicit fuel (the
interval width shrinks every iteration, so fuel a.length suffices). -/
def ssLoop (a : List Int) (v : Int) (right : Bool) :
    Nat → Nat → Nat → Nat
  | 0, lo, _ => lo
  | fuel + 1, lo, hi =>
    if lo < hi then
      let mid := (lo + hi) / 2
      if ssTest v right (a.getD mid 0) then ssLoop a v right fuel (mid + 1) hi
      else ssLoop a v right fuel lo mid
    else lo

/-- numpy ndarray.searchsorted on a sorted list: the index where v would
be inserted to keep the list sorted, on the left (first index whose
entry is at least v) or right (first index whose entry exceeds v) of
any run of entries equal to v. -/
def searchsorted (a : List Int) (v : Int) (right : Bool) : Nat :=
  ssLoop a v right a.length 0 a.length

/-- Python sequence indexing with a possibly negative index, as used on
the numpy time arrays: a negative index counts from the end. -/
def pyGet (l : List Int) (i : Int) : Int :=
  if i < 0 then l.getD (l.length - i.natAbs) 0 else l.getD i.natAbs 0

/-- A history value: a numeric reading, or none for the masked marker
(np.ma.masked) that renders as a gap during disconnections. -/
abbrev Val := Option Int

/-- The RuntimeError cases raised by the History persistence methods. -/
inductive HErr where
  /-- RuntimeError: Cannot begin logging if logging is already active. -/
  | alreadyLogging
  /-- RuntimeError: Cannot write log data if logging is not active. -/
  | notLogging
  /-- RuntimeError: Cannot end logging if logging is not active. -/
  | notLoggingEnd
  /-- RuntimeError: Cannot save data. -/
  | cannotSave
deriving Repr, DecidableEq

/-- The History object of mas.py.  times and values are the full
allocated arrays (allocate_arrays fills them with zeros); the first
filled_points entries are the live samples.  history_buffer is the
class attribute (1000 in the source) carried per instance. -/
structure History where
  history_length : Int
  log_dir : String
  can_save : Bool
  times : List Int
  values : List Val
  filled_points : Nat
  logging : Bool
  log_start : Int
  log_end : Int
  history_buffer : Nat
deriving Repr, DecidableEq

/-- A History as built by History.__init__ from a writable or absent
log directory: capacity twice the block size, no filled points, logging
off, log window set to the construction time. -/
def History.make (history_length : Int) (log_dir : String)
    (can_save : Bool) (block : Nat) (now : Int) : History :=
  { history_length := history_length
    log_dir := log_dir
    can_save := can_save
    times := List.replicate (block * 2) 0
    values := List.replicate (block * 2) (some 0)
    filled_points := 0
    logging := false
    log_start := now
    log_end := now
    history_buffer := block }

/-- An empty History of arbitrary allocated capacity with block size
block, generalising History.__init__ (which always allocates capacity
2 * history_buffer); used to state the capacity claims for general C. -/
def History.mkEmpty (capacity block : Nat) (history_length : Int) : History :=
  { history_length := history_length
    log_dir := ""
    can_save := true
    times := List.replicate capacity 0
    values := List.replicate capacity (some 0)
    filled_points := 0
    logging := false
    log_start := 0
    log_end := 0
    history_buffer := block }

/-- The filled prefix of the time array. -/
def History.filled_times (h : History) : List Int :=
  h.times.take h.filled_points

/-- The filled prefix of the value array. -/
def History.filled_values (h : History) : List Val :=
  h.values.take h.filled_points

/-- The live samples: filled times paired with filled values. -/
def History.samples (h : History) : List (Int × Val) :=
  h.filled_times.zip h.filled_values

/-- The expression self.times[self.filled_points - 1] (the timestamp of
the most recent sample), as written in write_log, active_range and
save_history. -/
def History.last_time (h : History) : Int :=
  pyGet h.times ((h.filled_points : Int) - 1)

/-- History.write_log: raise unless logging is active and saving is
allowed; otherwise append to the log file exactly the samples whose
timestamp is strictly after log_end (located with searchsorted side
right over the sorted filled prefix), rename the file to carry the new
end timestamp, and advance log_end to the last filled timestamp.  The
returned list is the content written by this flush. -/
def History.write_log (h : History) : Except HErr (History × List (Int × Val)) :=
  if h.logging = false then .error .notLogging
  else if h.can_save = false then .error .cannotSave
  else
    let new_end := h.last_time
    let start_point := searchsorted h.filled_times h.log_end true
    let flushed := (h.filled_times.drop start_point).zip
      (h.filled_values.drop start_point)
    .ok ({ h with log_end := new_end }, flushed)

/-- History.arrays_full: flush the log first if logging is active, then
reallocate.  If the span from the sample at index history_buffer to the
last sample reaches history_length, keep the same capacity and drop the
oldest history_buffer samples; otherwise grow by history_buffer and
keep everything.  The last keep entries of the old arrays are copied to
the front of the new zero-filled arrays. -/
def History.realloc_keep (h : History) : Nat :=
  if h.history_length ≤ pyGet h.times (-1) - pyGet h.times (h.history_buffer : Int)
  then h.times.length - h.history_buffer
  else h.times.length

def History.realloc_points (h : History) : Nat :=
  if h.history_length ≤ pyGet h.times (-1) - pyGet h.times (h.history_buffer : Int)
  then h.times.length
  else h.times.length + h.history_buffer

/-- The reallocation at the end of History.arrays_full: allocate fresh
zero-filled arrays of realloc_points entries, copy the last
realloc_keep entries of the old arrays to their front, and set
filled_points to the number of entries kept. -/
def History.realloc (h : History) : History :=
  { h with
      times := h.times.drop (h.times.length - h.realloc_keep) ++
        List.replicate (h.realloc_points - h.realloc_keep) 0
      values := h.values.drop (h.values.length - h.realloc_keep) ++
        List.replicate (h.realloc_points - h.realloc_keep) (some 0)
      filled_points := h.realloc_keep }

def History.arrays_full (h : History) : Except HErr (History × List (Int × Val)) :=
  match (if h.logging = true then h.write_log else .ok (h, [])) with
  | .error e => .error e
  | .ok (h1, out) => .ok (h1.realloc, out)

/-- The append branch of History.add_point: store the sample at index
filled_points and advance the cursor. -/
def History.put_point (h : History) (t : Int) (v : Val) : History :=
  { h with
      times := h.times.set h.filled_points t
      values := h.values.set h.filled_points v
      filled_points := h.filled_points + 1 }

/-- History.add_point: append if there is room, otherwise reallocate
with arrays_full and then append.  (The source makes a recursive call
after arrays_full; since arrays_full leaves filled_points below the new
capacity whenever history_buffer is at least 1 — it always is, the
class attribute is 1000 — that call is unfolded to a direct append.) -/
def History.add_point (h : History) (t : Int) (v : Val) :
    Except HErr (History × List (Int × Val)) :=
  if h.filled_points < h.times.length then .ok (h.put_point t v, [])
  else
    match h.arrays_full with
    | .error e => .error e
    | .ok (h1, out) => .ok (h1.put_point t v, out)

/-- History.active_range: with at most one filled sample return the
explicit empty result; otherwise return the slice of the filled arrays
from searchsorted (side left) of last time minus time_range up to the
filled-points cursor. -/
def History.active_range (h : History) (time_range : Int) :
    Option (List Int × List Val) :=
  if h.filled_points ≤ 1 then none
  else
    let start_time := h.last_time - time_range
    let start_point := searchsorted h.filled_times start_time false
    some (h.filled_times.drop start_point, h.filled_values.drop start_point)

/-- History.string_time: the fixed strftime rendering of a timestamp.
Timestamps are abstract integers here, so the rendering is modelled as
their decimal form. -/
def string_time (t : Int) : String := toString t

/-- History.save_name: the log file path built from the start and end
timestamps (os.path.join of log_dir with
start__end_spin_log.dat). -/
def History.save_name (h : History) (start_time end_time : Int) : String :=
  (if h.log_dir = "" then "" else h.log_dir ++ "/") ++
    string_time start_time ++ "__" ++ string_time end_time ++ "_spin_log.dat"

/-- History.save_history: a no-op with at most one filled sample; a
RuntimeError when saving is disallowed; otherwise write every filled
sample to a new file named from the first and last filled timestamps.
The ok payload carries the file name and the written samples. -/
def History.save_history (h : History) :
    Except HErr (Option (String × List (Int × Val))) :=
  if h.filled_points ≤ 1 then .ok none
  else if h.can_save = false then .error .cannotSave
  else .ok (some (h.save_name (pyGet h.times 0) h.last_time, h.samples))

/-- History.begin_logging: raise if logging is already active, else
reset the log window to the current time and turn logging on. -/
def History.begin_logging (h : History) (now : Int) : Except HErr History :=
  if h.logging = true then .error .alreadyLogging
  else .ok { h with log_start := now, log_end := now, logging := true }

/-- History.end_logging: raise if logging is not active, else flush the
unlogged data with write_log, turn logging off and reset the log window
to the current time. -/
def History.end_logging (h : History) (now : Int) :
    Except HErr (History × List (Int × Val)) :=
  if h.logging = false then .error .notLoggingEnd
  else
    match h.write_log with
    | .error e => .error e
    | .ok (h1, out) =>
      .ok ({ h1 with logging := false, log_start := now, log_end := now }, out)

/-- One step of a logging session, as seen by the History buffer: an
add_point call, or a write_log flush (triggered by buffer-full
compaction or explicitly by end_logging). -/
inductive LogStep where
  | add (t : Int) (v : Val)
  | flush
deriving Repr, DecidableEq

/-- Run a list of logging-session steps, accumulating the concatenation
of everything the flushes wrote, in flush order. -/
def History.run_log (h : History) : List LogStep →
    Except HErr (History × List (Int × Val))
  | [] => .ok (h, [])
  | .add t v :: rest =>
    match h.add_point t v with
    | .error e => .error e
    | .ok (h1, out1) =>
      match h1.run_log rest with
      | .error e => .error e
      | .ok (h2, out2) => .ok (h2, out1 ++ out2)
  | .flush :: rest =>
    match h.write_log with
    | .error e => .error e
    | .ok (h1, out1) =>
      match h1.run_log rest with
      | .error e => .error e
      | .ok (h2, out2) => .ok (h2, out1 ++ out2)

/-- The samples added by a list of logging-session steps, in order. -/
def samplesOf : List LogStep → List (Int × Val)
  | [] => []
  | .add t v :: rest => (t, v) :: samplesOf rest
  | .flush :: rest => samplesOf rest

/-- The timestamps of the add steps, in order. -/
def addTimes : List LogStep → List Int
  | [] => []
  | .add t _ :: rest => t :: addTimes rest
  | .flush :: rest => addTimes rest

/-- Run a list of add_point calls, accumulating any log output the
reallocations flush. -/
def History.add_all (h : History) : List (Int × Val) →
    Except HErr (History × List (Int × Val))
  | [] => .ok (h, [])
  | (t, v) :: rest =>
    match h.add_point t v with
    | .error e => .error e
    | .ok (h1, out1) =>
      match h1.add_all rest with
      | .error e => .error e
      | .ok (h2, out2) => .ok (h2, out1 ++ out2)

/-- A mutating History operation.  active_range is read-only and is
omitted; save writes a file but never mutates the buffer. -/
inductive HOp where
  | add (t : Int) (v : Val)
  | beginLog (now : Int)
  | endLog (now : Int)
  | flushLog
  | save
deriving Repr, DecidableEq

/-- The state of the buffer after an operation.  A raising operation
leaves the Python object unchanged, because in the source every raise
in these methods happens before any field is mutated. -/
def History.apply_op (h : History) : HOp → History
  | .add t v =>
    match h.add_point t v with
    | .ok (h1, _) => h1
    | .error _ => h
  | .beginLog now =>
    match h.begin_logging now with
    | .ok h1 => h1
    | .error _ => h
  | .endLog now =>
    match h.end_logging now with
    | .ok (h1, _) => h1
    | .error _ => h
  | .flushLog =>
    match h.write_log with
    | .ok (h1, _) => h1
    | .error _ => h
  | .save => h

/-- The buffer invariant exactly as the specification states it:
filled_points within capacity, sorted filled timestamps, and log_end at
most the last filled timestamp while logging. -/
def History.claim_invariant (h : History) : Prop :=
  h.filled_points ≤ h.times.length ∧
  h.filled_times.Pairwise (· ≤ ·) ∧
  (h.logging = true → h.log_end ≤ h.last_time)

/-- The invariant the code actually maintains: while logging, log_end
is bounded by log_start or by the last filled timestamp (begin_logging
resets log_end to the current wall-clock time, which may exceed the
last sample already in the buffer). -/
def History.inv_amended (h : History) : Prop :=
  h.filled_points ≤ h.times.length ∧
  h.filled_times.Pairwise (· ≤ ·) ∧
  (h.logging = true → (h.log_end ≤ h.log_start ∨ h.log_end ≤ h.last_time))

/-- The filled samples not yet flushed to the log: those with timestamp
strictly after log_end. -/
def History.pendingLog (h : History) : List (Int × Val) :=
  h.samples.filter (fun p => decide (h.log_end < p.1))

/-- An upper bound on every timestamp the logging machinery has seen:
the flush watermark and the last filled time. -/
def History.high_mark (h : History) : Int :=
  max h.log_end h.last_time

/-- The conditions holding for a live logging session: logging on,
saving allowed, the block size positive and below capacity (the source
fixes block 1000 and initial capacity 2000), at least one filled
sample, cursor within capacity, parallel arrays of equal length, and a
sorted filled prefix. -/
def History.log_inv (h : History) : Prop :=
  h.logging = true ∧ h.can_save = true ∧
  0 < h.history_buffer ∧ h.history_buffer < h.times.length ∧
  1 ≤ h.filled_points ∧ h.filled_points ≤ h.times.length ∧
  h.values.length = h.times.length ∧
  h.filled_times.Pairwise (· ≤ ·)

/-- The outcome of one socket.recv call, as the environment provides
it: data received, a socket.timeout raise, or another socket.error
raise. -/
inductive SockResult where
  | ok
  | timeout
  | err
deriving Repr, DecidableEq

/-- How one pass through MASTCPThread.retry_connection ends: the True
return after a successful probe and a clean drain, the False return
when the window expires, or a socket exception raised by the
post-success drain recv, which escapes retry_connection and
run_connection. -/
inductive RetryResult where
  | resumed
  | windowExpired
  | drainTimeout
  | drainError
deriving Repr, DecidableEq

/-- The success branch of retry_connection: self.sleep(timeout_limit)
— which cannot raise — then handler.socket.recv(128) to discard stale
bytes, then return True.  The recv can raise, and its socket.timeout
or socket.error propagates out of retry_connection. -/
def drain_result : SockResult → RetryResult
  | .ok => .resumed
  | .timeout => .drainTimeout
  | .err => .drainError

/-- MASTCPThread.retry_connection: poll test_connection while less than
four timeout limits have elapsed since the failure.  The trace lists
each iteration of the while loop as the elapsed time at its guard check
together with the probe outcome; drain is the outcome of the
socket.recv(128) drain performed after the first successful probe.
Physical time diverges, so the trace of iterations is finite. -/
def retry_connection (timeout_limit : Nat) (drain : SockResult) :
    List (Nat × Bool) → RetryResult
  | [] => .windowExpired
  | (elapsed, probe) :: rest =>
    if elapsed < 4 * timeout_limit then
      if probe then drain_result drain
      else retry_connection timeout_limit drain rest
    else .windowExpired

/-- The reconnect message MASTCPThread.run emits for a propagated
socket.timeout. -/
def reconnect_timeout_msg : String :=
  "Timeout error: Check that the MAS controller is in remote mode."

/-- The reconnect message MASTCPThread.run emits for a propagated
socket.error that is not a timeout. -/
def reconnect_conn_msg : String :=
  "Connection error: Check that no other programs are connected to the MAS controller.\nYou may need to enter \"set mas off\" in RNMRA"

/-- The observable outcome of one run_connection cycle that raised a
timeout.  A True return from retry_connection resumes the loop with no
signal; a False return re-raises the original socket.timeout, which
MASTCPThread.run turns into the timeout reconnect notification; and a
socket.timeout or socket.error raised by the drain recv propagates the
same way, so run emits the matching reconnect notification even though
a probe succeeded.  The Bool says whether normal cycling resumed. -/
def run_cycle_after_timeout (timeout_limit : Nat) (drain : SockResult)
    (probes : List (Nat × Bool)) : Bool × Option String :=
  match retry_connection timeout_limit drain probes with
  | .resumed => (true, none)
  | .windowExpired => (false, some reconnect_timeout_msg)
  | .drainTimeout => (false, some reconnect_timeout_msg)
  | .drainError => (false, some reconnect_conn_msg)

/-- A two-entry command table for concrete checks: code AS with zero
arguments, code VD with one argument. -/
def c2table : CmdTable := [([65, 83], (0, 5)), ([86, 68], (1, 5))]

/-- A History with three filled samples at times 0, 5, 9, for concrete
active_range checks. -/
def c5h : History :=
  { history_length := 24, log_dir := "", can_save := true,
    times := [0, 5, 9, 0], values := [some 1, some 2, some 3, some 0],
    filled_points := 3, logging := false, log_start := 0, log_end := 0,
    history_buffer := 1 }

/-- A History in an active logging session (one filled sample at time
0, log window at 0), for concrete logging-session checks. -/
def c6h : History :=
  { history_length := 100, log_dir := "", can_save := true,
    times := [0, 0, 0, 0], values := [some 7, some 0, some 0, some 0],
    filled_points := 1, logging := true, log_start := 0, log_end := 0,
    history_buffer := 2 }

/-- Two add_point calls with equal (hence non-decreasing) timestamps,
each followed by a flush. -/
def c6steps : List LogStep :=
  [LogStep.add 1 (some 5), LogStep.flush, LogStep.add 1 (some 6),
    LogStep.flush]

/-- A History with two filled samples at times 0 and 1 and logging off,
satisfying the specification invariant. -/
def c7h : History :=
  { history_length := 100, log_dir := "", can_save := true,
    times := [0, 1, 0, 0], values := [some 1, some 2, some 0, some 0],
    filled_points := 2, logging := false, log_start := 0, log_end := 0,
    history_buffer := 1 }

/-- A History with a single filled sample and an unwritable log
directory: both save_history guard conditions hold at once. -/
def c9h1 : History :=
  { history_length := 24, log_dir := "logs", can_save := false,
    times := [0, 0], values := [some 1, some 0], filled_points := 1,
    logging := false, log_start := 0, log_end := 0, history_buffer := 1 }

/-- A History with two filled samples and an unwritable log
directory. -/
def c9h2 : History :=
  { history_length := 24, log_dir := "logs", can_save := false,
    times := [0, 2, 0], values := [some 1, some 2, some 0],
    filled_points := 2, logging := false, log_start := 0, log_end := 0,
    history_buffer := 1 }

/-- A History with two filled samples at times 0 and 2 and a writable
log directory. -/
def c9h3 : History :=
  { history_length := 24, log_dir := "", can_save := true,
    times := [0, 2, 0], values := [some 10, some 20, some 0],
    filled_points := 2, logging := false, log_start := 0, log_end := 0,
    history_buffer := 1 }

/-- A full History (two filled samples, capacity two) with an
unwritable log directory and logging off. -/
def c10h : History :=
  { history_length := 100, log_dir := "logs", can_save := false,
    times := [0, 1], values := [some 1, some 2], filled_points := 2,
    logging := false, log_start := 0, log_end := 0, history_buffer := 1 }

theorem getD_append_left {l r : List Int} {i : Nat} (d : Int)
    (h : i < l.length) : (l ++ r).getD i d = l.getD i d := by
  simp [List.getD_eq_getElem?_getD, List.getElem?_append, h]

theorem getD_take_of_lt {l : List Int} {n i : Nat} (d : Int)
    (h : i < n) : (l.take n).getD i d = l.getD i d := by
  simp [List.getD_eq_getElem?_getD, List.getElem?_take, h]

theorem getD_drop {l : List Int} (n i : Nat) (d : Int) :
    (l.drop n).getD i d = l.getD (n + i) d := by
  simp [List.getD_eq_getElem?_getD, List.getElem?_drop]

theorem getD_set_self {l : List Int} {i : Nat} {a d : Int}
    (h : i < l.length) : (l.set i a).getD i d = a := by
  simp [List.getD_eq_getElem?_getD, List.getElem?_set, h]

theorem getD_of_le {l : List Int} {n : Nat} (d : Int)
    (h : l.length ≤ n) : l.getD n d = d := by
  simp [List.getD_eq_getElem?_getD, List.getElem?_eq_none h]

theorem getD_mem {l : List Int} {i : Nat} (d : Int)
    (h : i < l.length) : l.getD i d ∈ l := by
  rw [List.getD_eq_getElem l d h]
  exact List.getElem_mem h

theorem take_set_succ {l : List Int} {k : Nat} {a : Int}
    (h : k < l.length) : (l.set k a).take (k + 1) = l.take k ++ [a] := by
  rw [List.set_eq_take_append_cons_drop, if_pos h,
    List.take_append_eq_append_take]
  have hlen : (l.take k).length = k := List.length_take_of_le (by omega)
  have h1 : List.take (k + 1) (List.take k l) = List.take k l :=
    List.take_of_length_le (by omega)
  have h2 : k + 1 - (List.take k l).length = 1 := by omega
  rw [h1, h2]
  simp

theorem take_set_succ' {l : List Val} {k : Nat} {a : Val}
    (h : k < l.length) : (l.set k a).take (k + 1) = l.take k ++ [a] := by
  rw [List.set_eq_take_append_cons_drop, if_pos h,
    List.take_append_eq_append_take]
  have hlen : (l.take k).length = k := List.length_take_of_le (by omega)
  have h1 : List.take (k + 1) (List.take k l) = List.take k l :=
    List.take_of_length_le (by omega)
  have h2 : k + 1 - (List.take k l).length = 1 := by omega
  rw [h1, h2]
  simp

theorem sorted_le_last {l : List Int} {x : Int} (d : Int)
    (hs : l.Pairwise (· ≤ ·)) (hx : x ∈ l) :
    x ≤ l.getD (l.length - 1) d := by
  obtain ⟨i, hi, rfl⟩ := List.mem_iff_getElem.mp hx
  have hlen : 0 < l.length := by omega
  rw [List.getD_eq_getElem l d (by omega)]
  rcases Nat.lt_or_ge i (l.length - 1) with hlt | hge
  · exact (List.pairwise_iff_getElem.mp hs) i (l.length - 1) hi (by omega) hlt
  · have : i = l.length - 1 := by omega
    subst this
    exact le_refl _

theorem filter_eq_drop_of_boundary {α : Type} {l : List α} {p : α → Bool}
    {k : Nat} (hk : k ≤ l.length)
    (h1 : ∀ (i : Nat) (h : i < k), p l[i] = false)
    (h2 : ∀ (i : Nat) (_hk : k ≤ i) (h2 : i < l.length), p l[i] = true) :
    l.filter p = l.drop k := by
  induction l generalizing k with
  | nil => simp
  | cons a t ih =>
    cases k with
    | zero =>
      rw [List.drop_zero, List.filter_eq_self.mpr]
      intro x hx
      obtain ⟨i, hi, rfl⟩ := List.mem_iff_getElem.mp hx
      exact h2 i (Nat.zero_le _) hi
    | succ k' =>
      have ha : p a = false := h1 0 (Nat.succ_pos _)
      rw [List.drop_succ_cons, List.filter_cons_of_neg (by simp [ha])]
      exact ih (by simpa using hk)
        (fun i h => h1 (i + 1) (by omega))
        (fun i hge hlt => h2 (i + 1) (by omega) (by simpa using hlt))

theorem ssTest_mono {a : List Int} {v : Int} {right : Bool}
    (hs : a.Pairwise (· ≤ ·)) {i j : Nat} (hij : i ≤ j) (hj : j < a.length)
    (h : ssTest v right (a.getD j 0) = true) :
    ssTest v right (a.getD i 0) = true := by
  have hle : a.getD i 0 ≤ a.getD j 0 := by
    rcases Nat.lt_or_ge i j with hlt | hge
    · rw [List.getD_eq_getElem a 0 (by omega), List.getD_eq_getElem a 0 hj]
      exact (List.pairwise_iff_getElem.mp hs) i j (by omega) hj hlt
    · have heq : i = j := by omega
      rw [heq]
  cases right with
  | false =>
    simp only [ssTest, Bool.cond_false, decide_eq_true_eq] at h ⊢
    omega
  | true =>
    simp only [ssTest, Bool.cond_true, decide_eq_true_eq] at h ⊢
    omega

theorem ssLoop_char (a : List Int) (v : Int) (right : Bool)
    (hs : a.Pairwise (· ≤ ·)) :
    ∀ (fuel lo hi : Nat), hi - lo ≤ fuel → lo ≤ hi → hi ≤ a.length →
    (∀ i, i < lo → ssTest v right (a.getD i 0) = true) →
    (∀ i, hi ≤ i → i < a.length → ssTest v right (a.getD i 0) = false) →
    lo ≤ ssLoop a v right fuel lo hi ∧ ssLoop a v right fuel lo hi ≤ hi ∧
    (∀ i, i < ssLoop a v right fuel lo hi →
      ssTest v right (a.getD i 0) = true) ∧
    (∀ i, ssLoop a v right fuel lo hi ≤ i → i < a.length →
      ssTest v right (a.getD i 0) = false) := by
  intro fuel
  induction fuel with
  | zero =>
    intro lo hi hfuel hle hhi hlo hhigh
    have : lo = hi := by omega
    subst this
    exact ⟨le_refl _, le_refl _, hlo, fun i h1 h2 => hhigh i h1 h2⟩
  | succ n ih =>
    intro lo hi hfuel hle hhi hlo hhigh
    by_cases hcmp : lo < hi
    · have hmidlo : lo ≤ (lo + hi) / 2 := by omega
      have hmidhi : (lo + hi) / 2 < hi := by omega
      simp only [ssLoop, if_pos hcmp]
      by_cases htest : ssTest v right (a.getD ((lo + hi) / 2) 0) = true
      · rw [if_pos htest]
        refine (ih ((lo + hi) / 2 + 1) hi (by omega) (by omega) hhi ?_ hhigh).imp
          (fun h => by omega) (fun h => h)
        intro i hi'
        exact ssTest_mono hs (by omega) (by omega) htest
      · rw [if_neg htest]
        have hfalse : ssTest v right (a.getD ((lo + hi) / 2) 0) = false := by
          revert htest; cases ssTest v right (a.getD ((lo + hi) / 2) 0) <;> simp
        refine (ih lo ((lo + hi) / 2) (by omega) (by omega) (by omega) hlo ?_).imp
          (fun h => h) (fun h => ⟨by omega, h.2⟩)
        intro i hge hlt
        by_cases hwit : ssTest v right (a.getD i 0) = true
        · have := ssTest_mono hs hge (by omega) hwit
          rw [hfalse] at this
          exact absurd this (by simp)
        · revert hwit; cases ssTest v right (a.getD i 0) <;> simp
    · simp only [ssLoop, if_neg hcmp]
      have : lo = hi := by omega
      subst this
      exact ⟨le_refl _, le_refl _, hlo, fun i h1 h2 => hhigh i h1 h2⟩

theorem searchsorted_char (a : List Int) (v : Int) (right : Bool)
    (hs : a.Pairwise (· ≤ ·)) :
    searchsorted a v right ≤ a.length ∧
    (∀ i, i < searchsorted a v right → ssTest v right (a.getD i 0) = true) ∧
    (∀ i, searchsorted a v right ≤ i → i < a.length →
      ssTest v right (a.getD i 0) = false) := by
  have h := ssLoop_char a v right hs a.length 0 a.length (by omega)
    (Nat.zero_le _) (le_refl _) (fun i h => absurd h (Nat.not_lt_zero i))
    (fun i h1 h2 => absurd h2 (by omega))
  exact ⟨h.2.1, h.2.2.1, h.2.2.2⟩

theorem searchsorted_boundary (l1 l2 : List Int) (v : Int) (right : Bool)
    (hs : (l1 ++ l2).Pairwise (· ≤ ·))
    (h1 : ∀ x ∈ l1, ssTest v right x = true)
    (h2 : ∀ x ∈ l2, ssTest v right x = false) :
    searchsorted (l1 ++ l2) v right = l1.length := by
  obtain ⟨hlen, htrue, hfalse⟩ := searchsorted_char (l1 ++ l2) v right hs
  have halen : (l1 ++ l2).length = l1.length + l2.length := by simp
  rcases Nat.lt_trichotomy (searchsorted (l1 ++ l2) v right) l1.length
    with hlt | heq' | hgt
  · exfalso
    have hmem : (l1 ++ l2).getD (searchsorted (l1 ++ l2) v right) 0 ∈ l1 := by
      rw [getD_append_left 0 hlt]
      exact getD_mem 0 hlt
    have := h1 _ hmem
    rw [hfalse _ (le_refl _) (by omega)] at this
    exact absurd this (by simp)
  · exact heq'
  · exfalso
    have hl2 : 0 < l2.length := by omega
    have hmem : (l1 ++ l2).getD l1.length 0 ∈ l2 := by
      rw [List.getD_eq_getElem?_getD, List.getElem?_append, if_neg (by omega)]
      simp only [Nat.sub_self]
      rw [← List.getD_eq_getElem?_getD]
      exact getD_mem 0 hl2
    have := h2 _ hmem
    rw [htrue _ hgt] at this
    exact absurd this (by simp)

theorem retry_connection_of_success (T : Nat) (drain : SockResult)
    (probes : List (Nat × Bool))
    (hmono : (probes.map Prod.fst).Pairwise (· ≤ ·))
    (hex : ∃ p ∈ probes, p.1 < 4 * T ∧ p.2 = true) :
    retry_connection T drain probes = drain_result drain := by
  induction probes with
  | nil =>
    obtain ⟨p, hp, _⟩ := hex
    exact absurd hp (List.not_mem_nil p)
  | cons q rest ih =>
    obtain ⟨e, r⟩ := q
    rw [List.map_cons, List.pairwise_cons] at hmono
    obtain ⟨hq, hmono'⟩ := hmono
    obtain ⟨p, hp, hplt, hptrue⟩ := hex
    simp only [retry_connection]
    by_cases helt : e < 4 * T
    · rw [if_pos helt]
      cases r with
      | true => simp
      | false =>
        simp only [Bool.false_eq_true, if_false]
        apply ih hmono'
        rcases List.mem_cons.mp hp with heq | hmem
        · rw [heq] at hptrue
          exact absurd hptrue (by simp)
        · exact ⟨p, hmem, hplt, hptrue⟩
    · exfalso
      rcases List.mem_cons.mp hp with heq | hmem
      · rw [heq] at hplt
        exact helt hplt
      · have : e ≤ p.1 := hq p.1 (List.mem_map_of_mem Prod.fst hmem)
        omega

theorem retry_connection_of_all_fail (T : Nat) (drain : SockResult)
    (probes : List (Nat × Bool))
    (hall : ∀ p ∈ probes, p.1 < 4 * T → p.2 = false) :
    retry_connection T drain probes = .windowExpired := by
  induction probes with
  | nil => rfl
  | cons q rest ih =>
    obtain ⟨e, r⟩ := q
    simp only [retry_connection]
    by_cases helt : e < 4 * T
    · rw [if_pos helt]
      have hr : r = false := hall (e, r) (List.mem_cons_self _ _) helt
      rw [hr]
      simp only [Bool.false_eq_true, if_false]
      exact ih (fun p hp h => hall p (List.mem_cons_of_mem _ hp) h)
    · rw [if_neg helt]

/-- C8 counterexample: even with a test_connection probe that succeeds
inside the 4 x timeout_limit window, the stale-byte drain recv of
retry_connection can itself raise socket.timeout; the exception
propagates out of run_connection to MASTCPThread.run, which emits the
reconnect notification instead of resuming, so the claimed
no-notification guarantee fails. -/
theorem c8_claim_counterexample :
    (∃ p ∈ [((0 : Nat), true)], p.1 < 4 * 3 ∧ p.2 = true) ∧
    run_cycle_after_timeout 3 SockResult.timeout [(0, true)] =
      (false, some reconnect_timeout_msg) ∧
    run_cycle_after_timeout 3 SockResult.timeout [(0, true)] ≠
      (true, none) :=
  ⟨by decide, rfl, by decide⟩

/-- C8 (amended): after a timeout during a cycle, a successful
test_connection probe inside the 4 x timeout_limit window makes the
loop resume Active with no reconnect notification provided the
stale-byte drain recv completes without raising; when the window
expires with every probe failing, the original timeout propagates and
the timeout reconnect notification is emitted; and when the drain
itself raises socket.timeout or socket.error, that exception
propagates the same way and the matching reconnect notification is
emitted even though a probe succeeded. -/
theorem c8_timeout_retry_amended (T : Nat) (drain : SockResult)
    (probes : List (Nat × Bool))
    (hmono : (probes.map Prod.fst).Pairwise (· ≤ ·)) :
    ((∃ p ∈ probes, p.1 < 4 * T ∧ p.2 = true) → drain = .ok →
      run_cycle_after_timeout T drain probes = (true, none)) ∧
    ((∀ p ∈ probes, p.1 < 4 * T → p.2 = false) →
      run_cycle_after_timeout T drain probes =
        (false, some reconnect_timeout_msg)) ∧
    ((∃ p ∈ probes, p.1 < 4 * T ∧ p.2 = true) → drain = .timeout →
      run_cycle_after_timeout T drain probes =
        (false, some reconnect_timeout_msg)) ∧
    ((∃ p ∈ probes, p.1 < 4 * T ∧ p.2 = true) → drain = .err →
      run_cycle_after_timeout T drain probes =
        (false, some reconnect_conn_msg)) := by
  refine ⟨?_, ?_, ?_, ?_⟩
  · intro hex hd
    subst hd
    rw [run_cycle_after_timeout,
      retry_connection_of_success T SockResult.ok probes hmono hex]
    rfl
  · intro hall
    rw [run_cycle_after_timeout,
      retry_connection_of_all_fail T drain probes hall]
  · intro hex hd
    subst hd
    rw [run_cycle_after_timeout,
      retry_connection_of_success T SockResult.timeout probes hmono hex]
    rfl
  · intro hex hd
    subst hd
    rw [run_cycle_after_timeout,
      retry_connection_of_success T SockResult.err probes hmono hex]
    rfl

theorem c8_timeout_retry_amended_witness :
    run_cycle_after_timeout 3 SockResult.ok [(0, false), (1, true)] =
      (true, none) ∧
    run_cycle_after_timeout 3 SockResult.ok [(0, false), (12, true)] =
      (false, some reconnect_timeout_msg) ∧
    run_cycle_after_timeout 3 SockResult.timeout [(0, false), (1, true)] =
      (false, some reconnect_timeout_msg) ∧
    run_cycle_after_timeout 3 SockResult.err [(0, false), (1, true)] =
      (false, some reconnect_conn_msg) :=
  ⟨(c8_timeout_retry_amended 3 SockResult.ok [(0, false), (1, true)]
      (by decide)).1 (by decide) rfl,
   (c8_timeout_retry_amended 3 SockResult.ok [(0, false), (12, true)]
      (by decide)).2.1 (by decide),
   (c8_timeout_retry_amended 3 SockResult.timeout [(0, false), (1, true)]
      (by decide)).2.2.1 (by decide) rfl,
   (c8_timeout_retry_amended 3 SockResult.err [(0, false), (1, true)]
      (by decide)).2.2.2 (by decide) rfl⟩

/-- C1: decoding an encoded ASCII message whose buffer is completed
with the line-feed half of the terminator yields exactly the
whitespace-split token list of the message. -/
theorem c1_codec_roundtrip (m : List Nat) (_hascii : ∀ c ∈ m, c < 128) :
    decode_message (encode_message m ++ [138]) = pySplit m := by
  have hmap : (encode_message m ++ [138]).map (fun b => b - 128) =
      m ++ [13, 10] := by
    have hcomp : ((fun b => b - 128) ∘ fun n : Nat => n + 128) = id := by
      funext n
      simp
    simp [encode_message, List.map_map, hcomp]
  have hlen : (encode_message m ++ [138]).length - 2 = m.length := by
    simp [encode_message]
  rw [decode_message, hmap, hlen, List.take_left]

theorem c1_codec_roundtrip_witness :
    (∀ c ∈ [65, 83, 32, 49, 50], c < 128) ∧
    decode_message (encode_message [65, 83, 32, 49, 50] ++ [138]) =
      pySplit [65, 83, 32, 49, 50] ∧
    pySplit [65, 83, 32, 49, 50] = [[65, 83], [49, 50]] :=
  ⟨by decide, c1_codec_roundtrip [65, 83, 32, 49, 50] (by decide), by decide⟩

/-- C2: for every table, send_command rejects with ValueError any code
absent from the table, and any present code called with an argument
count different from the declared arity, in both cases before any
bytes are produced for the socket. -/
theorem c2_send_command_validates (table : CmdTable) (command : List Nat)
    (args : List (List Nat)) :
    (List.lookup command table = none →
      send_command table command args = .error .unknownCommand) ∧
    (∀ nargs other, List.lookup command table = some (nargs, other) →
      args.length ≠ nargs →
      send_command table command args = .error .wrongArgCount) := by
  constructor
  · intro hnone
    simp [send_command, hnone]
  · intro nargs other hsome hne
    simp [send_command, hsome, hne]

theorem c2_send_command_validates_witness :
    (List.lookup [77, 65] c2table = none ∧
      send_command c2table [77, 65] [] = .error .unknownCommand) ∧
    (List.lookup [86, 68] c2table = some (1, 5) ∧
      send_command c2table [86, 68] [] = .error .wrongArgCount) :=
  ⟨⟨by decide, (c2_send_command_validates c2table [77, 65] []).1 (by decide)⟩,
   ⟨by decide,
    (c2_send_command_validates c2table [86, 68] []).2 1 5 (by decide)
      (by decide)⟩⟩

/-- C9: save_history is a no-op whenever at most one sample is filled
(also when the directory is unwritable), raises RuntimeError when more
than one sample is filled but the directory was unwritable at
construction, and otherwise writes every filled sample to a file named
from the first and last filled timestamps. -/
theorem c9_save_history (h : History) :
    (h.filled_points ≤ 1 → h.save_history = .ok none) ∧
    (1 < h.filled_points → h.can_save = false →
      h.save_history = .error .cannotSave) ∧
    (1 < h.filled_points → h.can_save = true →
      h.save_history = .ok (some
        (h.save_name (pyGet h.times 0) h.last_time, h.samples))) := by
  refine ⟨fun hle => ?_, fun hgt hcs => ?_, fun hgt hcs => ?_⟩
  · simp only [History.save_history]
    rw [if_pos hle]
  · simp only [History.save_history]
    rw [if_neg (by omega), if_pos hcs]
  · simp only [History.save_history]
    rw [if_neg (by omega), if_neg (by simp [hcs])]

theorem c9_save_history_witness :
    c9h1.save_history = .ok none ∧
    c9h2.save_history = .error .cannotSave ∧
    c9h3.save_history = .ok (some
      (c9h3.save_name (pyGet c9h3.times 0) c9h3.last_time, c9h3.samples)) ∧
    c9h3.save_name (pyGet c9h3.times 0) c9h3.last_time =
      "0__2_spin_log.dat" ∧
    c9h3.samples = [(0, some 10), (2, some 20)] :=
  ⟨(c9_save_history c9h1).1 (by decide),
   (c9_save_history c9h2).2.1 (by decide) rfl,
   (c9_save_history c9h3).2.2 (by decide) rfl,
   by decide, by decide⟩

/-- C10: begin_logging never checks can_save, so with an unwritable log
directory it still succeeds and turns logging on; afterwards the
incremental flush — through end_logging, or through the write_log call
arrays_full makes when a full buffer receives add_point — raises
RuntimeError, and the failed add_point leaves the buffer unchanged. -/
theorem c10_begin_logging_unchecked (h : History) (now now2 t : Int)
    (v : Val) (hcs : h.can_save = false) (hlog : h.logging = false)
    (hfull : h.filled_points = h.times.length) :
    h.begin_logging now =
      .ok { h with log_start := now, log_end := now, logging := true } ∧
    History.end_logging
      { h with log_start := now, log_end := now, logging := true } now2 =
      .error .cannotSave ∧
    History.add_point
      { h with log_start := now, log_end := now, logging := true } t v =
      .error .cannotSave ∧
    History.apply_op
      { h with log_start := now, log_end := now, logging := true }
      (HOp.add t v) =
      { h with log_start := now, log_end := now, logging := true } := by
  refine ⟨?_, ?_, ?_, ?_⟩
  · simp [History.begin_logging, hlog]
  · simp [History.end_logging, History.write_log, hcs]
  · simp [History.add_point, History.arrays_full, History.write_log, hcs,
      hfull]
  · simp [History.apply_op, History.add_point, History.arrays_full,
      History.write_log, hcs, hfull]

theorem c10_begin_logging_unchecked_witness :
    c10h.begin_logging 5 =
      .ok { c10h with log_start := 5, log_end := 5, logging := true } ∧
    History.end_logging
      { c10h with log_start := 5, log_end := 5, logging := true } 6 =
      .error .cannotSave ∧
    History.add_point
      { c10h with log_start := 5, log_end := 5, logging := true } 7 (some 8) =
      .error .cannotSave ∧
    History.apply_op
      { c10h with log_start := 5, log_end := 5, logging := true }
      (HOp.add 7 (some 8)) =
      { c10h with log_start := 5, log_end := 5, logging := true } :=
  c10_begin_logging_unchecked c10h 5 6 7 (some 8) rfl rfl rfl

/-- C5: with a sorted filled prefix, active_range returns exactly the
contiguous suffix of filled samples (times paired with values) whose
timestamp is at least the last timestamp minus the window, and returns
the explicit empty result whenever fewer than two samples are
filled. -/
theorem c5_active_range (h : History) (w : Int)
    (hsort : h.filled_times.Pairwise (· ≤ ·))
    (hfc : h.filled_points ≤ h.times.length) :
    (h.filled_points ≤ 1 → h.active_range w = none) ∧
    (1 < h.filled_points →
      ∃ k, k ≤ h.filled_points ∧
        h.active_range w =
          some (h.filled_times.drop k, h.filled_values.drop k) ∧
        (∀ i, i < k → h.filled_times.getD i 0 < h.last_time - w) ∧
        (∀ i, k ≤ i → i < h.filled_points →
          h.last_time - w ≤ h.filled_times.getD i 0)) := by
  have hlen : h.filled_times.length = h.filled_points :=
    List.length_take_of_le hfc
  constructor
  · intro hle
    simp only [History.active_range]
    rw [if_pos hle]
  · intro hgt
    obtain ⟨hk, htrue, hfalse⟩ :=
      searchsorted_char h.filled_times (h.last_time - w) false hsort
    refine ⟨searchsorted h.filled_times (h.last_time - w) false,
      by omega, ?_, ?_, ?_⟩
    · simp only [History.active_range]
      rw [if_neg (by omega)]
    · intro i hi
      have := htrue i hi
      simp only [ssTest, Bool.cond_false, decide_eq_true_eq] at this
      exact this
    · intro i hik hi
      have := hfalse i hik (by omega)
      simp only [ssTest, Bool.cond_false] at this
      simp only [decide_eq_false_iff_not] at this
      omega

theorem c5_active_range_witness :
    1 < c5h.filled_points ∧
    (∃ k, k ≤ c5h.filled_points ∧
      c5h.active_range 4 =
        some (c5h.filled_times.drop k, c5h.filled_values.drop k) ∧
      (∀ i, i < k → c5h.filled_times.getD i 0 < c5h.last_time - 4) ∧
      (∀ i, k ≤ i → i < c5h.filled_points →
        c5h.last_time - 4 ≤ c5h.filled_times.getD i 0)) ∧
    c5h.active_range 4 = some ([5, 9], [some 2, some 3]) :=
  ⟨by decide, (c5_active_range c5h 4 (by decide) (by decide)).2 (by decide),
   by decide⟩

theorem add_all_no_realloc (ss : List (Int × Val)) (h : History)
    (hroom : h.filled_points + ss.length ≤ h.times.length)
    (hvlen : h.values.length = h.times.length) :
    h.add_all ss = .ok ({ h with
      times := h.times.take h.filled_points ++ ss.map Prod.fst ++
        h.times.drop (h.filled_points + ss.length)
      values := h.values.take h.filled_points ++ ss.map Prod.snd ++
        h.values.drop (h.filled_points + ss.length)
      filled_points := h.filled_points + ss.length }, []) := by
  induction ss generalizing h with
  | nil =>
    simp [History.add_all, List.take_append_drop]
  | cons p rest ih =>
    obtain ⟨t, v⟩ := p
    have hlt : h.filled_points < h.times.length := by
      have hr := hroom
      simp only [List.length_cons] at hr
      omega
    have hvlt : h.filled_points < h.values.length := by omega
    have hroom' : (h.put_point t v).filled_points + rest.length ≤
        (h.put_point t v).times.length := by
      simp only [History.put_point, List.length_set, List.length_cons]
        at hroom ⊢
      omega
    have hvlen' : (h.put_point t v).values.length =
        (h.put_point t v).times.length := by
      simp [History.put_point, hvlen]
    have hstep : h.add_all ((t, v) :: rest) =
        match (h.put_point t v).add_all rest with
        | .error e => .error e
        | .ok (h2, out2) => .ok (h2, out2) := by
      simp only [History.add_all, History.add_point]
      rw [if_pos hlt]
      exact rfl
    rw [hstep, ih (h.put_point t v) hroom' hvlen']
    simp only [History.put_point]
    have ht : (h.times.set h.filled_points t).take (h.filled_points + 1) =
        h.times.take h.filled_points ++ [t] := take_set_succ hlt
    have hv : (h.values.set h.filled_points v).take (h.filled_points + 1) =
        h.values.take h.filled_points ++ [v] := take_set_succ' hvlt
    have hdt : (h.times.set h.filled_points t).drop
        (h.filled_points + 1 + rest.length) =
        h.times.drop (h.filled_points + (rest.length + 1)) := by
      rw [List.drop_set, if_pos (by omega)]
      congr 1
      omega
    have hdv : (h.values.set h.filled_points v).drop
        (h.filled_points + 1 + rest.length) =
        h.values.drop (h.filled_points + (rest.length + 1)) := by
      rw [List.drop_set, if_pos (by omega)]
      congr 1
      omega
    rw [ht, hv, hdt, hdv]
    simp [List.append_assoc]
    omega

theorem add_all_append (a b : List (Int × Val)) (h : History) :
    h.add_all (a ++ b) =
      match h.add_all a with
      | .error e => .error e
      | .ok (h1, out1) =>
        match h1.add_all b with
        | .error e => .error e
        | .ok (h2, out2) => .ok (h2, out1 ++ out2) := by
  induction a generalizing h with
  | nil =>
    simp only [List.nil_append, History.add_all]
    cases h.add_all b with
    | error e => rfl
    | ok r => rfl
  | cons p rest ih =>
    obtain ⟨t, v⟩ := p
    simp only [List.cons_append, History.add_all]
    cases h.add_point t v with
    | error e => rfl
    | ok r =>
      obtain ⟨h1, out1⟩ := r
      simp only
      rw [List.append_eq, ih h1]
      cases h1.add_all rest with
      | error e => rfl
      | ok r2 =>
        obtain ⟨h2, out2⟩ := r2
        simp only
        cases h2.add_all b with
        | error e => rfl
        | ok r3 =>
          obtain ⟨h3, out3⟩ := r3
          simp [List.append_assoc]

theorem add_point_full_nolog (h : History) (t : Int) (v : Val)
    (hlog : h.logging = false)
    (hfull : h.filled_points = h.times.length) :
    h.add_point t v = .ok ((h.realloc).put_point t v, []) := by
  simp only [History.add_point, History.arrays_full]
  rw [if_neg (by omega), if_neg (by simp [hlog])]

theorem realloc_grow (h : History)
    (hvlen : h.values.length = h.times.length)
    (hspan : pyGet h.times (-1) - pyGet h.times (h.history_buffer : Int) <
      h.history_length) :
    h.realloc = { h with
      times := h.times ++ List.replicate h.history_buffer 0
      values := h.values ++ List.replicate h.history_buffer (some 0)
      filled_points := h.times.length } := by
  have hkeep : h.realloc_keep = h.times.length := by
    rw [History.realloc_keep, if_neg (by omega)]
  have hpts : h.realloc_points = h.times.length + h.history_buffer := by
    rw [History.realloc_points, if_neg (by omega)]
  simp [History.realloc, hkeep, hpts, hvlen]

theorem realloc_compact (h : History)
    (hvlen : h.values.length = h.times.length)
    (hB : h.history_buffer ≤ h.times.length)
    (hspan : h.history_length ≤
      pyGet h.times (-1) - pyGet h.times (h.history_buffer : Int)) :
    h.realloc = { h with
      times := h.times.drop h.history_buffer ++
        List.replicate h.history_buffer 0
      values := h.values.drop h.history_buffer ++
        List.replicate h.history_buffer (some 0)
      filled_points := h.times.length - h.history_buffer } := by
  have hkeep : h.realloc_keep = h.times.length - h.history_buffer := by
    rw [History.realloc_keep, if_pos hspan]
  have hpts : h.realloc_points = h.times.length := by
    rw [History.realloc_points, if_pos hspan]
  have h1 : h.times.length - (h.times.length - h.history_buffer) =
      h.history_buffer := by omega
  have h2 : h.values.length - (h.times.length - h.history_buffer) =
      h.history_buffer := by omega
  have h3 : h.realloc_points - h.realloc_keep = h.history_buffer := by
    rw [hkeep, hpts]; omega
  simp [History.realloc, hkeep, hpts, h1, h2, h3, hvlen]

theorem add_all_singleton (h : History) (t : Int) (v : Val) :
    h.add_all [(t, v)] =
      match h.add_point t v with
      | .error e => .error e
      | .ok (h1, out1) => .ok (h1, out1) := by
  simp only [History.add_all]
  cases h.add_point t v with
  | error e => rfl
  | ok r =>
    obtain ⟨h1, out1⟩ := r
    simp [History.add_all]

theorem add_all_append_ok (a b : List (Int × Val)) (h h1 h2 : History)
    (out1 out2 : List (Int × Val))
    (ha : h.add_all a = .ok (h1, out1))
    (hb : h1.add_all b = .ok (h2, out2)) :
    h.add_all (a ++ b) = .ok (h2, out1 ++ out2) := by
  rw [add_all_append, ha]
  simp only
  rw [hb]

theorem add_point_grow_char (h : History) (t : Int) (v : Val)
    (hlog : h.logging = false)
    (hfull : h.filled_points = h.times.length)
    (hvlen : h.values.length = h.times.length)
    (hB : 0 < h.history_buffer)
    (hspan : pyGet h.times (-1) - pyGet h.times (h.history_buffer : Int) <
      h.history_length) :
    ∃ h', h.add_point t v = .ok (h', []) ∧
      h'.times.length = h.times.length + h.history_buffer ∧
      h'.filled_points = h.times.length + 1 ∧
      h'.filled_times = h.times ++ [t] ∧
      h'.filled_values = h.values ++ [v] := by
  refine ⟨(h.realloc).put_point t v, add_point_full_nolog h t v hlog hfull, ?_⟩
  rw [realloc_grow h hvlen hspan]
  refine ⟨?_, ?_, ?_, ?_⟩
  · simp [History.put_point]
  · simp [History.put_point]
  · simp only [History.put_point, History.filled_times]
    rw [take_set_succ (by simp [hB])]
    rw [List.take_left' rfl]
  · simp only [History.put_point, History.filled_values]
    rw [take_set_succ' (by simp [hvlen, hB])]
    rw [List.take_left' hvlen]

theorem add_point_compact_char (h : History) (t : Int) (v : Val)
    (hlog : h.logging = false)
    (hfull : h.filled_points = h.times.length)
    (hvlen : h.values.length = h.times.length)
    (hB : 0 < h.history_buffer)
    (hBC : h.history_buffer < h.times.length)
    (hspan : h.history_length ≤
      pyGet h.times (-1) - pyGet h.times (h.history_buffer : Int)) :
    ∃ h', h.add_point t v = .ok (h', []) ∧
      h'.times.length = h.times.length ∧
      h'.filled_points = h.times.length - h.history_buffer + 1 ∧
      h'.filled_times = h.times.drop h.history_buffer ++ [t] ∧
      h'.filled_values = h.values.drop h.history_buffer ++ [v] := by
  refine ⟨(h.realloc).put_point t v, add_point_full_nolog h t v hlog hfull, ?_⟩
  rw [realloc_compact h hvlen (by omega) hspan]
  have hdl : (h.times.drop h.history_buffer).length =
      h.times.length - h.history_buffer := by simp
  have hdvl : (h.values.drop h.history_buffer).length =
      h.times.length - h.history_buffer := by simp [hvlen]
  refine ⟨?_, ?_, ?_, ?_⟩
  · simp [History.put_point]
    omega
  · simp [History.put_point]
  · simp only [History.put_point, History.filled_times]
    rw [take_set_succ (by simp; omega)]
    rw [List.take_left' hdl]
  · simp only [History.put_point, History.filled_values]
    rw [take_set_succ' (by simp [hvlen]; omega)]
    rw [List.take_left' hdvl]

/-- C3: filling an empty capacity-C buffer with C samples whose span
from index B to the last is below history_length and then adding one
more sample grows the arrays: the new capacity is C + B and all C + 1
samples are retained in order. -/
theorem c3_full_buffer_grows (C B : Nat) (L : Int) (ss : List (Int × Val))
    (s : Int × Val) (hlen : ss.length = C) (hB : 0 < B) (_hBC : B < C)
    (hspan : (ss.map Prod.fst).getD (C - 1) 0 -
      (ss.map Prod.fst).getD B 0 < L) :
    ∃ h', (History.mkEmpty C B L).add_all (ss ++ [s]) = .ok (h', []) ∧
      h'.times.length = C + B ∧
      h'.filled_points = C + 1 ∧
      h'.filled_times = (ss ++ [s]).map Prod.fst ∧
      h'.filled_values = (ss ++ [s]).map Prod.snd := by
  obtain ⟨t, v⟩ := s
  have hfill := add_all_no_realloc ss (History.mkEmpty C B L)
    (by simp [History.mkEmpty, hlen]) (by simp [History.mkEmpty])
  have hfill2 : (History.mkEmpty C B L).add_all ss = .ok
      ({ History.mkEmpty C B L with
          times := ss.map Prod.fst
          values := ss.map Prod.snd
          filled_points := C }, []) := by
    rw [hfill]
    simp [History.mkEmpty, hlen, List.drop_replicate]
  have hpy1 : pyGet (ss.map Prod.fst) (-1) =
      (ss.map Prod.fst).getD (C - 1) 0 := by
    rw [pyGet, if_pos (by norm_num)]
    simp [hlen]
  have hpy2 : pyGet (ss.map Prod.fst) ((B : Nat) : Int) =
      (ss.map Prod.fst).getD B 0 := by
    rw [pyGet, if_neg (by omega)]
    simp
  obtain ⟨h', hadd, hl, hfp, hft, hfv⟩ := add_point_grow_char
    ({ History.mkEmpty C B L with
        times := ss.map Prod.fst
        values := ss.map Prod.snd
        filled_points := C }) t v
    (by simp [History.mkEmpty])
    (by simp [hlen])
    (by simp)
    (by simp [History.mkEmpty, hB])
    (by simp only [History.mkEmpty]; rw [hpy1, hpy2]; exact hspan)
  have hsingle : History.add_all
      ({ History.mkEmpty C B L with
          times := ss.map Prod.fst
          values := ss.map Prod.snd
          filled_points := C }) [(t, v)] = .ok (h', []) := by
    rw [add_all_singleton, hadd]
  have hcomp := add_all_append_ok ss [(t, v)] (History.mkEmpty C B L) _ h'
    [] [] hfill2 hsingle
  refine ⟨h', by simpa using hcomp, ?_, ?_, ?_, ?_⟩
  · simp only [History.mkEmpty] at hl
    simpa [hlen] using hl
  · simpa [hlen] using hfp
  · simpa [List.map_append] using hft
  · simpa [List.map_append] using hfv

theorem c3_full_buffer_grows_witness :
    ∃ h', (History.mkEmpty 3 1 10).add_all
        [(0, some 4), (1, some 5), (2, some 6), (3, some 7)] = .ok (h', []) ∧
      h'.times.length = 4 ∧
      h'.filled_points = 4 ∧
      h'.filled_times =
        [(0, some 4), (1, some 5), (2, some 6), (3, some 7)].map Prod.fst ∧
      h'.filled_values =
        [(0, some 4), (1, some 5), (2, some 6), (3, some 7)].map Prod.snd := by
  have h := c3_full_buffer_grows 3 1 10 [(0, some 4), (1, some 5), (2, some 6)]
    (3, some 7) (by decide) (by decide) (by decide) (by decide)
  simpa using h

/-- C4: filling an empty capacity-C buffer with C samples whose span
from index B to the last reaches history_length and then adding one
more sample compacts: the capacity stays C, the oldest B samples are
discarded, and exactly the most recent C - B + 1 samples (including
the new one) are retained in order. -/
theorem c4_full_buffer_compacts (C B : Nat) (L : Int)
    (ss : List (Int × Val)) (s : Int × Val)
    (hlen : ss.length = C) (hB : 0 < B) (hBC : B < C)
    (hspan : L ≤ (ss.map Prod.fst).getD (C - 1) 0 -
      (ss.map Prod.fst).getD B 0) :
    ∃ h', (History.mkEmpty C B L).add_all (ss ++ [s]) = .ok (h', []) ∧
      h'.times.length = C ∧
      h'.filled_points = C - B + 1 ∧
      h'.filled_times = ((ss ++ [s]).drop B).map Prod.fst ∧
      h'.filled_values = ((ss ++ [s]).drop B).map Prod.snd := by
  obtain ⟨t, v⟩ := s
  have hfill := add_all_no_realloc ss (History.mkEmpty C B L)
    (by simp [History.mkEmpty, hlen]) (by simp [History.mkEmpty])
  have hfill2 : (History.mkEmpty C B L).add_all ss = .ok
      ({ History.mkEmpty C B L with
          times := ss.map Prod.fst
          values := ss.map Prod.snd
          filled_points := C }, []) := by
    rw [hfill]
    simp [History.mkEmpty, hlen, List.drop_replicate]
  have hpy1 : pyGet (ss.map Prod.fst) (-1) =
      (ss.map Prod.fst).getD (C - 1) 0 := by
    rw [pyGet, if_pos (by norm_num)]
    simp [hlen]
  have hpy2 : pyGet (ss.map Prod.fst) ((B : Nat) : Int) =
      (ss.map Prod.fst).getD B 0 := by
    rw [pyGet, if_neg (by omega)]
    simp
  obtain ⟨h', hadd, hl, hfp, hft, hfv⟩ := add_point_compact_char
    ({ History.mkEmpty C B L with
        times := ss.map Prod.fst
        values := ss.map Prod.snd
        filled_points := C }) t v
    (by simp [History.mkEmpty])
    (by simp [hlen])
    (by simp)
    (by simp [History.mkEmpty, hB])
    (by simp [History.mkEmpty, hlen, hBC])
    (by simp only [History.mkEmpty]; rw [hpy1, hpy2]; exact hspan)
  have hsingle : History.add_all
      ({ History.mkEmpty C B L with
          times := ss.map Prod.fst
          values := ss.map Prod.snd
          filled_points := C }) [(t, v)] = .ok (h', []) := by
    rw [add_all_singleton, hadd]
  have hcomp := add_all_append_ok ss [(t, v)] (History.mkEmpty C B L) _ h'
    [] [] hfill2 hsingle
  have hdrop : (ss ++ [(t, v)]).drop B = ss.drop B ++ [(t, v)] := by
    rw [List.drop_append_eq_append_drop]
    have : B - ss.length = 0 := by omega
    rw [this, List.drop_zero]
  refine ⟨h', by simpa using hcomp, ?_, ?_, ?_, ?_⟩
  · simpa [hlen] using hl
  · simpa [hlen] using hfp
  · rw [hdrop, List.map_append]
    rw [hft]
    congr 1
    exact (List.map_drop Prod.fst ss B).symm
  · rw [hdrop, List.map_append]
    rw [hfv]
    congr 1
    exact (List.map_drop Prod.snd ss B).symm

theorem c4_full_buffer_compacts_witness :
    ∃ h', (History.mkEmpty 3 1 1).add_all
        [(0, some 4), (1, some 5), (2, some 6), (3, some 7)] = .ok (h', []) ∧
      h'.times.length = 3 ∧
      h'.filled_points = 3 ∧
      h'.filled_times =
        ([(0, some 4), (1, some 5), (2, some 6), (3, some 7)].drop 1).map
          Prod.fst ∧
      h'.filled_values =
        ([(0, some 4), (1, some 5), (2, some 6), (3, some 7)].drop 1).map
          Prod.snd := by
  have h := c4_full_buffer_compacts 3 1 1
    [(0, some 4), (1, some 5), (2, some 6)] (3, some 7)
    (by decide) (by decide) (by decide) (by decide)
  simpa using h

theorem zip_drop_comm {α β : Type} (l : List α) (r : List β) (n : Nat) :
    (l.drop n).zip (r.drop n) = (l.zip r).drop n := by
  induction l generalizing r n with
  | nil => simp
  | cons a l ih =>
    cases r with
    | nil => simp
    | cons b r =>
      cases n with
      | zero => simp
      | succ m => simpa using ih r m

theorem filled_le_last (h : History)
    (hsort : h.filled_times.Pairwise (· ≤ ·))
    (hfp1 : 1 ≤ h.filled_points) (hfc : h.filled_points ≤ h.times.length) :
    ∀ x ∈ h.filled_times, x ≤ h.last_time := by
  intro x hx
  have hlen : h.filled_times.length = h.filled_points :=
    List.length_take_of_le hfc
  have hlast : h.last_time =
      h.filled_times.getD (h.filled_times.length - 1) 0 := by
    rw [History.last_time, pyGet, if_neg (by omega)]
    have h1 : ((h.filled_points : Int) - 1).natAbs = h.filled_points - 1 := by
      omega
    rw [h1, hlen, History.filled_times, getD_take_of_lt 0 (by omega)]
  rw [hlast]
  exact sorted_le_last 0 hsort hx

theorem pendingLog_nil_of_le (h : History)
    (hall : ∀ x ∈ h.filled_times, x ≤ h.log_end) :
    h.pendingLog = [] := by
  rw [History.pendingLog]
  rw [List.filter_eq_nil_iff.mpr]
  intro q hq
  obtain ⟨a, b⟩ := q
  have ha := (List.of_mem_zip hq).1
  have := hall a ha
  simp
  omega

theorem write_log_spec (h : History)
    (hlog : h.logging = true) (hcs : h.can_save = true)
    (hfc : h.filled_points ≤ h.times.length)
    (hvlen : h.values.length = h.times.length)
    (hsort : h.filled_times.Pairwise (· ≤ ·)) :
    h.write_log = .ok ({ h with log_end := h.last_time }, h.pendingLog) := by
  have hftl : h.filled_times.length = h.filled_points :=
    List.length_take_of_le hfc
  have hfvl : h.filled_values.length = h.filled_points :=
    List.length_take_of_le (by omega)
  obtain ⟨hk, htrue, hfalse⟩ := searchsorted_char h.filled_times h.log_end
    true hsort
  have hpend : h.pendingLog =
      h.samples.drop (searchsorted h.filled_times h.log_end true) := by
    rw [History.pendingLog]
    simp only [History.samples]
    apply filter_eq_drop_of_boundary
      (by rw [List.length_zip]; omega)
    · intro i hi
      have hit : i < h.filled_times.length := by omega
      rw [List.getElem_zip]
      have := htrue i hi
      rw [List.getD_eq_getElem h.filled_times 0 hit] at this
      simp only [ssTest, Bool.cond_true, decide_eq_true_eq] at this
      simp only [decide_eq_false_iff_not]
      omega
    · intro i hik hilen
      have hit : i < h.filled_times.length := by
        rw [List.length_zip] at hilen
        omega
      rw [List.getElem_zip]
      have := hfalse i hik hit
      rw [List.getD_eq_getElem h.filled_times 0 hit] at this
      simp only [ssTest, Bool.cond_true] at this
      simp only [decide_eq_false_iff_not] at this
      simp only [decide_eq_true_eq]
      omega
  simp only [History.write_log]
  rw [if_neg (by simp [hlog]), if_neg (by simp [hcs])]
  rw [hpend]
  simp only [History.samples]
  rw [zip_drop_comm]

theorem realloc_keep_le (h : History) : h.realloc_keep ≤ h.times.length := by
  rw [History.realloc_keep]
  split <;> omega

theorem realloc_keep_pos (h : History)
    (hBC : h.history_buffer < h.times.length) : 1 ≤ h.realloc_keep := by
  rw [History.realloc_keep]
  split <;> omega

theorem realloc_keep_lt_points (h : History) (hB : 0 < h.history_buffer)
    (hBC : h.history_buffer < h.times.length) :
    h.realloc_keep < h.realloc_points := by
  rw [History.realloc_keep, History.realloc_points]
  split <;> omega

theorem realloc_points_ge (h : History) :
    h.times.length ≤ h.realloc_points := by
  rw [History.realloc_points]
  split <;> omega

theorem realloc_times_length (h : History) :
    h.realloc.times.length = h.realloc_points := by
  have h1 := realloc_keep_le h
  have h2 := realloc_points_ge h
  simp only [History.realloc, List.length_append, List.length_drop,
    List.length_replicate]
  omega

theorem realloc_values_length (h : History)
    (hvlen : h.values.length = h.times.length) :
    h.realloc.values.length = h.realloc_points := by
  have h1 := realloc_keep_le h
  have h2 := realloc_points_ge h
  simp only [History.realloc, List.length_append, List.length_drop,
    List.length_replicate]
  omega

theorem realloc_filled_times (h : History) :
    h.realloc.filled_times =
      h.times.drop (h.times.length - h.realloc_keep) := by
  have h1 := realloc_keep_le h
  simp only [History.realloc, History.filled_times]
  rw [List.take_append_eq_append_take]
  have hdl : (h.times.drop (h.times.length - h.realloc_keep)).length =
      h.realloc_keep := by
    rw [List.length_drop]
    omega
  rw [List.take_of_length_le (by omega), hdl, Nat.sub_self, List.take_zero,
    List.append_nil]

theorem realloc_last_time (h : History)
    (hfull : h.filled_points = h.times.length)
    (hBC : h.history_buffer < h.times.length) :
    h.realloc.last_time = h.last_time := by
  have h1 := realloc_keep_le h
  have hk1 : 1 ≤ h.realloc_keep := realloc_keep_pos h hBC
  have hlt : h.realloc.times.length = h.realloc_points :=
    realloc_times_length h
  rw [History.last_time, History.last_time, pyGet, pyGet,
    if_neg (by simp only [History.realloc]; omega), if_neg (by omega)]
  have ha : (((h.realloc.filled_points : Int)) - 1).natAbs =
      h.realloc_keep - 1 := by
    simp only [History.realloc]
    omega
  have hb : (((h.filled_points : Int)) - 1).natAbs = h.times.length - 1 := by
    omega
  rw [ha, hb]
  simp only [History.realloc]
  rw [getD_append_left 0 (by rw [List.length_drop]; omega), getD_drop]
  congr 1
  omega

theorem put_point_filled_times (h : History) (t : Int) (v : Val)
    (hlt : h.filled_points < h.times.length) :
    (h.put_point t v).filled_times = h.filled_times ++ [t] := by
  simp only [History.put_point, History.filled_times]
  exact take_set_succ hlt

theorem put_point_filled_values (h : History) (t : Int) (v : Val)
    (hlt : h.filled_points < h.values.length) :
    (h.put_point t v).filled_values = h.filled_values ++ [v] := by
  simp only [History.put_point, History.filled_values]
  exact take_set_succ' hlt

theorem put_point_last_time (h : History) (t : Int) (v : Val)
    (hlt : h.filled_points < h.times.length) :
    (h.put_point t v).last_time = t := by
  simp only [History.put_point, History.last_time, pyGet]
  rw [if_neg (by omega)]
  have ha : (((h.filled_points + 1 : Nat) : Int) - 1).natAbs =
      h.filled_points := by
    omega
  rw [ha]
  exact getD_set_self hlt

theorem realloc_put_inv (h0 : History) (t : Int) (v : Val)
    (hfull : h0.filled_points = h0.times.length)
    (hsort : h0.filled_times.Pairwise (· ≤ ·))
    (hB : 0 < h0.history_buffer)
    (hBC : h0.history_buffer < h0.times.length)
    (ht : h0.last_time ≤ t)
    (hle : h0.logging = true →
      h0.log_end ≤ h0.log_start ∨ h0.log_end ≤ t) :
    ((h0.realloc).put_point t v).inv_amended := by
  have hkle := realloc_keep_le h0
  have hkpos := realloc_keep_pos h0 hBC
  have hklt := realloc_keep_lt_points h0 hB hBC
  have hrlen := realloc_times_length h0
  have hrfp : h0.realloc.filled_points = h0.realloc_keep := rfl
  have hlt : h0.realloc.filled_points < h0.realloc.times.length := by omega
  have htimes : h0.filled_times = h0.times := by
    rw [History.filled_times, hfull, List.take_length]
  have hsort' : h0.times.Pairwise (· ≤ ·) := htimes ▸ hsort
  have hmem : ∀ x ∈ h0.realloc.filled_times, x ≤ t := by
    intro x hx
    rw [realloc_filled_times h0] at hx
    have hx' : x ∈ h0.filled_times := by
      rw [htimes]
      exact (List.drop_sublist _ _).subset hx
    exact le_trans (filled_le_last h0 hsort (by omega) (by omega) x hx') ht
  refine ⟨?_, ?_, ?_⟩
  · simp only [History.put_point, List.length_set]
    omega
  · rw [put_point_filled_times _ _ _ hlt]
    rw [List.pairwise_append]
    refine ⟨?_, List.pairwise_singleton _ _, ?_⟩
    · rw [realloc_filled_times h0]
      exact List.Pairwise.sublist (List.drop_sublist _ _) hsort'
    · intro x hx y hy
      rw [List.mem_singleton] at hy
      subst hy
      exact hmem x hx
  · intro hl
    have hll : h0.logging = true := hl
    rw [put_point_last_time _ _ _ hlt]
    have h1 : ((h0.realloc).put_point t v).log_end = h0.log_end := rfl
    have h2 : ((h0.realloc).put_point t v).log_start = h0.log_start := rfl
    rw [h1, h2]
    exact hle hll

theorem add_point_full_log (h : History) (t : Int) (v : Val)
    (hl : h.logging = true) (hc : h.can_save = true)
    (hfull : h.filled_points = h.times.length) :
    h.add_point t v = .ok
      ((({ h with log_end := h.last_time }).realloc).put_point t v,
       (h.filled_times.drop (searchsorted h.filled_times h.log_end true)).zip
         (h.filled_values.drop
           (searchsorted h.filled_times h.log_end true))) := by
  simp only [History.add_point]
  rw [if_neg (by omega)]
  simp only [History.arrays_full, History.write_log]
  rw [if_pos hl, if_neg (by simp [hl]), if_neg (by simp [hc])]

/-- C7 counterexample: c7h satisfies the claimed invariant, but
begin_logging at wall-clock time 5 (later than the last filled sample
at time 1) yields a logging state whose log_end exceeds the last filled
timestamp, so the operation does not preserve the claimed invariant. -/
theorem c7_claim_counterexample :
    History.claim_invariant c7h ∧
    ¬ History.claim_invariant (c7h.apply_op (HOp.beginLog 5)) := by
  constructor
  · refine ⟨by decide, by decide, ?_⟩
    intro hco
    exact absurd hco (by decide)
  · intro hco
    obtain ⟨_, _, h3⟩ := hco
    have := h3 (by decide)
    revert this
    decide

/-- C7 (amended): every History operation preserves the invariant that
filled_points is within capacity and the filled timestamps are sorted;
and, while logging, log_end is bounded by log_start or by the last
filled timestamp (the original claim bounded log_end by the last filled
timestamp alone, which begin_logging violates).  add_point is assumed
to be called with a timestamp at least the last filled one, and the
block size is positive and below capacity as in the source (1000 versus
at least 2000). -/
theorem c7_invariant_amended (h : History) (op : HOp)
    (hinv : h.inv_amended)
    (hB : 0 < h.history_buffer) (hBC : h.history_buffer < h.times.length)
    (hadd : ∀ t v, op = HOp.add t v → h.last_time ≤ t) :
    (h.apply_op op).inv_amended := by
  obtain ⟨hfc, hsort, hlogend⟩ := hinv
  cases op with
  | save => exact ⟨hfc, hsort, hlogend⟩
  | beginLog now =>
    by_cases hl : h.logging = true
    · have hred : h.apply_op (HOp.beginLog now) = h := by
        simp only [History.apply_op, History.begin_logging]
        rw [if_pos hl]
      rw [hred]
      exact ⟨hfc, hsort, hlogend⟩
    · have hred : h.apply_op (HOp.beginLog now) =
          { h with log_start := now, log_end := now, logging := true } := by
        simp only [History.apply_op, History.begin_logging]
        rw [if_neg hl]
      rw [hred]
      exact ⟨hfc, hsort, fun _ => Or.inl (le_refl _)⟩
  | flushLog =>
    by_cases hl : h.logging = true
    · by_cases hc : h.can_save = true
      · have hred : h.apply_op HOp.flushLog =
            { h with log_end := h.last_time } := by
          simp only [History.apply_op, History.write_log]
          rw [if_neg (by simp [hl]), if_neg (by simp [hc])]
        rw [hred]
        exact ⟨hfc, hsort, fun _ => Or.inr (le_refl _)⟩
      · have hc' : h.can_save = false := by
          revert hc; cases h.can_save <;> simp
        have hred : h.apply_op HOp.flushLog = h := by
          simp only [History.apply_op, History.write_log]
          rw [if_neg (by simp [hl]), if_pos hc']
        rw [hred]
        exact ⟨hfc, hsort, hlogend⟩
    · have hl' : h.logging = false := by
        revert hl; cases h.logging <;> simp
      have hred : h.apply_op HOp.flushLog = h := by
        simp only [History.apply_op, History.write_log]
        rw [if_pos hl']
      rw [hred]
      exact ⟨hfc, hsort, hlogend⟩
  | endLog now =>
    by_cases hl : h.logging = true
    · by_cases hc : h.can_save = true
      · have hred : h.apply_op (HOp.endLog now) =
            { h with logging := false, log_start := now, log_end := now } := by
          simp only [History.apply_op, History.end_logging, History.write_log]
          rw [if_neg (by simp [hl]), if_neg (by simp [hl]),
            if_neg (by simp [hc])]
        rw [hred]
        refine ⟨hfc, hsort, ?_⟩
        intro hco
        exact absurd hco (by simp)
      · have hc' : h.can_save = false := by
          revert hc; cases h.can_save <;> simp
        have hred : h.apply_op (HOp.endLog now) = h := by
          simp only [History.apply_op, History.end_logging, History.write_log]
          rw [if_neg (by simp [hl]), if_neg (by simp [hl]), if_pos hc']
        rw [hred]
        exact ⟨hfc, hsort, hlogend⟩
    · have hl' : h.logging = false := by
        revert hl; cases h.logging <;> simp
      have hred : h.apply_op (HOp.endLog now) = h := by
        simp only [History.apply_op, History.end_logging]
        rw [if_pos hl']
      rw [hred]
      exact ⟨hfc, hsort, hlogend⟩
  | add t v =>
    have ht := hadd t v rfl
    by_cases hlt : h.filled_points < h.times.length
    · have hred : h.apply_op (HOp.add t v) = h.put_point t v := by
        simp only [History.apply_op, History.add_point]
        rw [if_pos hlt]
      rw [hred]
      refine ⟨?_, ?_, ?_⟩
      · simp only [History.put_point, List.length_set]
        omega
      · rw [put_point_filled_times _ _ _ hlt, List.pairwise_append]
        refine ⟨hsort, List.pairwise_singleton _ _, ?_⟩
        intro x hx y hy
        rw [List.mem_singleton] at hy
        subst hy
        rcases Nat.eq_zero_or_pos h.filled_points with h0 | h1
        · rw [History.filled_times, h0, List.take_zero] at hx
          exact absurd hx (List.not_mem_nil x)
        · exact le_trans (filled_le_last h hsort h1 (by omega) x hx) ht
      · intro hl
        rw [put_point_last_time _ _ _ hlt]
        have h1 : (h.put_point t v).log_end = h.log_end := rfl
        have h2 : (h.put_point t v).log_start = h.log_start := rfl
        rw [h1, h2]
        rcases hlogend hl with hcase | hcase
        · exact Or.inl hcase
        · exact Or.inr (le_trans hcase ht)
    · have hfull : h.filled_points = h.times.length := by omega
      by_cases hl : h.logging = true
      · by_cases hc : h.can_save = true
        · have hred : h.apply_op (HOp.add t v) =
              (({ h with log_end := h.last_time }).realloc).put_point t v := by
            simp only [History.apply_op]
            rw [add_point_full_log h t v hl hc hfull]
          rw [hred]
          exact realloc_put_inv _ t v hfull hsort hB hBC ht
            (fun _ => Or.inr ht)
        · have hc' : h.can_save = false := by
            revert hc; cases h.can_save <;> simp
          have hred : h.apply_op (HOp.add t v) = h := by
            simp only [History.apply_op, History.add_point,
              History.arrays_full, History.write_log]
            rw [if_neg (by omega), if_pos hl, if_neg (by simp [hl]),
              if_pos hc']
          rw [hred]
          exact ⟨hfc, hsort, hlogend⟩
      · have hl' : h.logging = false := by
          revert hl; cases h.logging <;> simp
        have hred : h.apply_op (HOp.add t v) = (h.realloc).put_point t v := by
          simp only [History.apply_op]
          rw [add_point_full_nolog h t v hl' hfull]
        rw [hred]
        apply realloc_put_inv h t v hfull hsort hB hBC ht
        intro hco
        rw [hl'] at hco
        exact absurd hco (by simp)

theorem c7_invariant_amended_witness :
    c7h.inv_amended ∧ (c7h.apply_op (HOp.add 3 (some 4))).inv_amended :=
  ⟨⟨by decide, by decide, fun hco => absurd hco (by decide)⟩,
   c7_invariant_amended c7h (HOp.add 3 (some 4))
     ⟨by decide, by decide, fun hco => absurd hco (by decide)⟩
     (by decide) (by decide)
     (fun t v he => by
       injection he with h1 h2
       subst h1
       decide)⟩

theorem last_time_mem (h : History) (hfp1 : 1 ≤ h.filled_points)
    (hfc : h.filled_points ≤ h.times.length) :
    h.last_time ∈ h.filled_times := by
  have hlen : h.filled_times.length = h.filled_points :=
    List.length_take_of_le hfc
  have hlast : h.last_time =
      h.filled_times.getD (h.filled_times.length - 1) 0 := by
    rw [History.last_time, pyGet, if_neg (by omega)]
    have h1 : ((h.filled_points : Int) - 1).natAbs = h.filled_points - 1 := by
      omega
    rw [h1, hlen, History.filled_times, getD_take_of_lt 0 (by omega)]
  rw [hlast]
  exact getD_mem 0 (by omega)

theorem run_log_flush_cons (h h1 : History) (out1 : List (Int × Val))
    (rest : List LogStep) (hwl : h.write_log = .ok (h1, out1)) :
    h.run_log (.flush :: rest) =
      match h1.run_log rest with
      | .error e => .error e
      | .ok (h2, out2) => .ok (h2, out1 ++ out2) := by
  simp only [History.run_log]
  rw [hwl]

theorem run_log_add_cons (h h1 : History) (out1 : List (Int × Val))
    (t : Int) (v : Val) (rest : List LogStep)
    (hap : h.add_point t v = .ok (h1, out1)) :
    h.run_log (.add t v :: rest) =
      match h1.run_log rest with
      | .error e => .error e
      | .ok (h2, out2) => .ok (h2, out1 ++ out2) := by
  simp only [History.run_log]
  rw [hap]

theorem run_log_append (a b : List LogStep) (h : History) :
    h.run_log (a ++ b) =
      match h.run_log a with
      | .error e => .error e
      | .ok (h1, out1) =>
        match h1.run_log b with
        | .error e => .error e
        | .ok (h2, out2) => .ok (h2, out1 ++ out2) := by
  induction a generalizing h with
  | nil =>
    simp only [List.nil_append, History.run_log]
    cases h.run_log b with
    | error e => rfl
    | ok r => rfl
  | cons p rest ih =>
    cases p with
    | add t v =>
      simp only [List.cons_append, History.run_log]
      cases h.add_point t v with
      | error e => rfl
      | ok r =>
        obtain ⟨h1, out1⟩ := r
        simp only
        rw [List.append_eq, ih h1]
        cases h1.run_log rest with
        | error e => rfl
        | ok r2 =>
          obtain ⟨h2, out2⟩ := r2
          simp only
          cases h2.run_log b with
          | error e => rfl
          | ok r3 =>
            obtain ⟨h3, out3⟩ := r3
            simp [List.append_assoc]
    | flush =>
      simp only [List.cons_append, History.run_log]
      cases h.write_log with
      | error e => rfl
      | ok r =>
        obtain ⟨h1, out1⟩ := r
        simp only
        rw [List.append_eq, ih h1]
        cases h1.run_log rest with
        | error e => rfl
        | ok r2 =>
          obtain ⟨h2, out2⟩ := r2
          simp only
          cases h2.run_log b with
          | error e => rfl
          | ok r3 =>
            obtain ⟨h3, out3⟩ := r3
            simp [List.append_assoc]

theorem run_log_append_ok (a b : List LogStep) (h h1 h2 : History)
    (out1 out2 : List (Int × Val))
    (ha : h.run_log a = .ok (h1, out1))
    (hb : h1.run_log b = .ok (h2, out2)) :
    h.run_log (a ++ b) = .ok (h2, out1 ++ out2) := by
  rw [run_log_append, ha]
  simp only
  rw [hb]

theorem add_point_full_log2 (h h1 : History) (t : Int) (v : Val)
    (out1 : List (Int × Val)) (hwl : h.write_log = .ok (h1, out1))
    (hfull : ¬ h.filled_points < h.times.length) (hl : h.logging = true) :
    h.add_point t v = .ok ((h1.realloc).put_point t v, out1) := by
  simp only [History.add_point, History.arrays_full]
  rw [if_neg hfull, if_pos hl, hwl]

theorem put_point_samples (h : History) (t : Int) (v : Val)
    (hlt : h.filled_points < h.times.length)
    (hvlen : h.values.length = h.times.length) :
    (h.put_point t v).samples = h.samples ++ [(t, v)] := by
  simp only [History.samples]
  rw [put_point_filled_times _ _ _ hlt,
    put_point_filled_values _ _ _ (by omega)]
  rw [List.zip_append
    (by simp [History.filled_times, History.filled_values, hvlen])]
  rfl

theorem put_point_pending (h : History) (t : Int) (v : Val)
    (hlt : h.filled_points < h.times.length)
    (hvlen : h.values.length = h.times.length)
    (ht : h.log_end < t) :
    (h.put_point t v).pendingLog = h.pendingLog ++ [(t, v)] := by
  have hle : (h.put_point t v).log_end = h.log_end := rfl
  simp only [History.pendingLog, hle]
  rw [put_point_samples h t v hlt hvlen, List.filter_append]
  congr 1
  simp [ht]

theorem realloc_put_log_inv (h0 : History) (t : Int) (v : Val)
    (hinv : h0.log_inv)
    (hfull : h0.filled_points = h0.times.length)
    (hend : h0.log_end = h0.last_time)
    (ht : h0.last_time < t) :
    ((h0.realloc).put_point t v).log_inv ∧
    ((h0.realloc).put_point t v).pendingLog = [(t, v)] ∧
    ((h0.realloc).put_point t v).high_mark = t := by
  obtain ⟨hl, hc, hB, hBC, hfp1, hfc, hvlen, hsort⟩ := hinv
  have hkle := realloc_keep_le h0
  have hkpos := realloc_keep_pos h0 hBC
  have hklt := realloc_keep_lt_points h0 hB hBC
  have hrtl := realloc_times_length h0
  have hrvl := realloc_values_length h0 hvlen
  have hptsge := realloc_points_ge h0
  have hfpr : h0.realloc.filled_points = h0.realloc_keep := rfl
  have hhb : h0.realloc.history_buffer = h0.history_buffer := rfl
  have hlt2 : h0.realloc.filled_points < h0.realloc.times.length := by
    omega
  have hvlen2 : h0.realloc.values.length = h0.realloc.times.length := by
    rw [hrvl, hrtl]
  have htimes_eq : h0.filled_times = h0.times := by
    rw [History.filled_times, hfull, List.take_length]
  have hsortT : h0.times.Pairwise (· ≤ ·) := htimes_eq ▸ hsort
  have hmem : ∀ x ∈ (h0.realloc).filled_times, x ≤ h0.last_time := by
    intro x hx
    rw [realloc_filled_times h0] at hx
    have hx' : x ∈ h0.filled_times :=
      htimes_eq ▸ (List.drop_sublist _ _).subset hx
    exact filled_le_last h0 hsort hfp1 hfc x hx'
  have hle0 : (h0.realloc).log_end = h0.log_end := rfl
  have hpend0 : (h0.realloc).pendingLog = [] := by
    apply pendingLog_nil_of_le
    intro x hx
    rw [hle0, hend]
    exact hmem x hx
  refine ⟨⟨hl, hc, hB, ?_, ?_, ?_, ?_, ?_⟩, ?_, ?_⟩
  · simp only [History.put_point, List.length_set]
    omega
  · simp only [History.put_point]
    omega
  · simp only [History.put_point, List.length_set]
    omega
  · simp only [History.put_point, List.length_set]
    rw [hrvl, hrtl]
  · rw [put_point_filled_times _ _ _ hlt2, List.pairwise_append]
    refine ⟨?_, List.pairwise_singleton _ _, ?_⟩
    · rw [realloc_filled_times h0]
      exact List.Pairwise.sublist (List.drop_sublist _ _) hsortT
    · intro x hx y hy
      rw [List.mem_singleton] at hy
      subst hy
      exact le_trans (hmem x hx) (le_of_lt ht)
  · rw [put_point_pending _ t v hlt2 hvlen2 (by rw [hle0, hend]; exact ht),
      hpend0, List.nil_append]
  · rw [History.high_mark, put_point_last_time _ _ _ hlt2]
    have h1 : ((h0.realloc).put_point t v).log_end = h0.log_end := rfl
    rw [h1, hend]
    exact max_eq_right (le_of_lt ht)

theorem run_log_spec (steps : List LogStep) :
    ∀ (h : History), h.log_inv →
    (addTimes steps).Pairwise (· < ·) →
    (∀ t ∈ addTimes steps, h.high_mark < t) →
    ∃ h' out, h.run_log steps = .ok (h', out) ∧
      out ++ h'.pendingLog = h.pendingLog ++ samplesOf steps ∧
      h'.log_inv ∧
      (∀ u : Int, h.high_mark < u → (∀ t ∈ addTimes steps, t < u) →
        h'.high_mark < u) := by
  induction steps with
  | nil =>
    intro h hinv _ _
    exact ⟨h, [], rfl, by simp [samplesOf], hinv, fun u hu _ => hu⟩
  | cons step rest ih =>
    intro h hinv hmono hall
    obtain ⟨hl, hc, hB, hBC, hfp1, hfc, hvlen, hsort⟩ := hinv
    cases step with
    | flush =>
      have hwl := write_log_spec h hl hc hfc hvlen hsort
      have hmemle : ∀ x ∈ h.filled_times, x ≤ h.last_time :=
        filled_le_last h hsort hfp1 hfc
      have hpend1 :
          ({ h with log_end := h.last_time } : History).pendingLog = [] := by
        apply pendingLog_nil_of_le
        intro x hx
        exact hmemle x hx
      have hinv1 : ({ h with log_end := h.last_time } : History).log_inv :=
        ⟨hl, hc, hB, hBC, hfp1, hfc, hvlen, hsort⟩
      have hmark1 :
          ({ h with log_end := h.last_time } : History).high_mark ≤
            h.high_mark := by
        have e1 : ({ h with log_end := h.last_time } : History).log_end =
            h.last_time := rfl
        have e2 : ({ h with log_end := h.last_time } : History).last_time =
            h.last_time := rfl
        rw [History.high_mark, History.high_mark, e1, e2, max_self]
        exact le_max_right _ _
      have hallr : ∀ t ∈ addTimes rest,
          ({ h with log_end := h.last_time } : History).high_mark < t := by
        intro t htm
        exact lt_of_le_of_lt hmark1 (hall t htm)
      obtain ⟨h', out2, hrun2, hacc2, hinv', hmark'⟩ :=
        ih _ hinv1 hmono hallr
      refine ⟨h', h.pendingLog ++ out2, ?_, ?_, hinv', ?_⟩
      · rw [run_log_flush_cons h _ _ rest hwl, hrun2]
      · rw [List.append_assoc, hacc2, hpend1, List.nil_append]
        rfl
      · intro u hu hall2
        exact hmark' u (lt_of_le_of_lt hmark1 hu) (fun s hs => hall2 s hs)
    | add t v =>
      have htm : h.high_mark < t := hall t (List.mem_cons_self _ _)
      have hrest_lt : ∀ s ∈ addTimes rest, t < s :=
        (List.pairwise_cons.mp hmono).1
      have hmonor : (addTimes rest).Pairwise (· < ·) :=
        (List.pairwise_cons.mp hmono).2
      have htlast : h.last_time ≤ h.high_mark := le_max_right _ _
      have htle : h.log_end ≤ h.high_mark := le_max_left _ _
      by_cases hlt : h.filled_points < h.times.length
      · have hap : h.add_point t v = .ok (h.put_point t v, []) := by
          simp only [History.add_point]
          rw [if_pos hlt]
        have hinv1 : (h.put_point t v).log_inv := by
          refine ⟨hl, hc, hB, ?_, ?_, ?_, ?_, ?_⟩
          · simp only [History.put_point, List.length_set]
            omega
          · simp only [History.put_point]
            omega
          · simp only [History.put_point, List.length_set]
            omega
          · simp only [History.put_point, List.length_set]
            omega
          · rw [put_point_filled_times _ _ _ hlt, List.pairwise_append]
            refine ⟨hsort, List.pairwise_singleton _ _, ?_⟩
            intro x hx y hy
            rw [List.mem_singleton] at hy
            subst hy
            exact le_trans (filled_le_last h hsort hfp1 hfc x hx)
              (le_trans htlast (le_of_lt htm))
        have hpend1 : (h.put_point t v).pendingLog =
            h.pendingLog ++ [(t, v)] :=
          put_point_pending h t v hlt hvlen (lt_of_le_of_lt htle htm)
        have hmark1 : (h.put_point t v).high_mark = t := by
          have e1 : (h.put_point t v).log_end = h.log_end := rfl
          rw [History.high_mark, e1, put_point_last_time _ _ _ hlt]
          exact max_eq_right (le_of_lt (lt_of_le_of_lt htle htm))
        have hallr : ∀ s ∈ addTimes rest,
            (h.put_point t v).high_mark < s := by
          intro s hs
          rw [hmark1]
          exact hrest_lt s hs
        obtain ⟨h', out2, hrun2, hacc2, hinv', hmark'⟩ :=
          ih _ hinv1 hmonor hallr
        refine ⟨h', out2, ?_, ?_, hinv', ?_⟩
        · rw [run_log_add_cons h _ [] t v rest hap, hrun2]
          rfl
        · rw [hacc2, hpend1]
          simp [List.append_assoc, samplesOf]
        · intro u hu hall2
          exact hmark' u
            (by rw [hmark1]; exact hall2 t (List.mem_cons_self _ _))
            (fun s hs => hall2 s (List.mem_cons_of_mem _ hs))
      · have hfull : h.filled_points = h.times.length := by omega
        have hwl := write_log_spec h hl hc hfc hvlen hsort
        have hap := add_point_full_log2 h _ t v _ hwl hlt hl
        have hAinv : ({ h with log_end := h.last_time } : History).log_inv :=
          ⟨hl, hc, hB, hBC, hfp1, hfc, hvlen, hsort⟩
        obtain ⟨hinv2, hpend2, hmark2⟩ := realloc_put_log_inv
          ({ h with log_end := h.last_time }) t v hAinv hfull rfl
          (lt_of_le_of_lt htlast htm)
        have hallr : ∀ s ∈ addTimes rest,
            ((({ h with log_end := h.last_time } : History).realloc).put_point
              t v).high_mark < s := by
          intro s hs
          rw [hmark2]
          exact hrest_lt s hs
        obtain ⟨h', out2, hrun2, hacc2, hinv', hmark'⟩ :=
          ih _ hinv2 hmonor hallr
        refine ⟨h', h.pendingLog ++ out2, ?_, ?_, hinv', ?_⟩
        · rw [run_log_add_cons h _ _ t v rest hap, hrun2]
        · rw [List.append_assoc, hacc2, hpend2]
          simp [samplesOf]
        · intro u hu hall2
          exact hmark' u
            (by rw [hmark2]; exact hall2 t (List.mem_cons_self _ _))
            (fun s hs => hall2 s (List.mem_cons_of_mem _ hs))

/-- C6 counterexample: with timestamps that are merely non-decreasing
(two add_point calls at time 1, a flush between them, and a final
flush), the concatenated flush contents list only the first sample, so
the flushes do not reproduce the samples added since begin_logging:
the second sample at the repeated timestamp is skipped forever. -/
theorem c6_claim_counterexample :
    Except.map Prod.snd (c6h.run_log c6steps) = .ok [(1, some 5)] ∧
    samplesOf c6steps = [(1, some 5), (1, some 6)] ∧
    ([(1, some 5)] : List (Int × Val)) ≠ [(1, some 5), (1, some 6)] :=
  ⟨rfl, rfl, by decide⟩

/-- C6 (amended): in an active logging session with saving allowed,
whose already-filled samples all lie at or before log_end, any
interleaving of add_point calls with strictly increasing timestamps
above log_end (rather than merely non-decreasing ones) and write_log
flushes, followed by the end_logging flush, writes every sample added
since begin_logging exactly once: the concatenation of all flush
contents in flush order equals the added sample sequence. -/
theorem c6_incremental_flush_amended (steps : List LogStep) (h : History)
    (hinv : h.log_inv)
    (hflushed : ∀ x ∈ h.filled_times, x ≤ h.log_end)
    (hmono : (addTimes steps).Pairwise (· < ·))
    (hall : ∀ t ∈ addTimes steps, h.log_end < t) :
    ∃ h', h.run_log (steps ++ [LogStep.flush]) =
      .ok (h', samplesOf steps) := by
  obtain ⟨hl, hc, hB, hBC, hfp1, hfc, hvlen, hsort⟩ := hinv
  have hmark_eq : h.high_mark = h.log_end := by
    rw [History.high_mark]
    exact max_eq_left (hflushed _ (last_time_mem h hfp1 hfc))
  obtain ⟨h1, out1, hrun1, hacc1, hinv1, _⟩ := run_log_spec steps h
    ⟨hl, hc, hB, hBC, hfp1, hfc, hvlen, hsort⟩ hmono
    (by intro t htm; rw [hmark_eq]; exact hall t htm)
  have hpend0 : h.pendingLog = [] := pendingLog_nil_of_le h hflushed
  rw [hpend0, List.nil_append] at hacc1
  obtain ⟨hl1, hc1, hB1, hBC1, hfp11, hfc1, hvlen1, hsort1⟩ := hinv1
  have hwl1 := write_log_spec h1 hl1 hc1 hfc1 hvlen1 hsort1
  have hflush : h1.run_log [LogStep.flush] =
      .ok ({ h1 with log_end := h1.last_time }, h1.pendingLog) := by
    rw [run_log_flush_cons h1 _ _ [] hwl1]
    simp [History.run_log]
  refine ⟨{ h1 with log_end := h1.last_time }, ?_⟩
  rw [run_log_append_ok steps [LogStep.flush] h h1 _ out1 h1.pendingLog
    hrun1 hflush, hacc1]

theorem c6_incremental_flush_amended_witness :
    ∃ h', c6h.run_log
        ([LogStep.add 1 (some 5), LogStep.flush, LogStep.add 2 (some 6)] ++
          [LogStep.flush]) =
      .ok (h', samplesOf
        [LogStep.add 1 (some 5), LogStep.flush, LogStep.add 2 (some 6)]) :=
  c6_incremental_flush_amended
    [LogStep.add 1 (some 5), LogStep.flush, LogStep.add 2 (some 6)] c6h
    ⟨rfl, rfl, by decide, by decide, by decide, by decide, rfl, by decide⟩
    (by decide) (by decide) (by decide)
